import Mathlib

/-!
Verification of the Astro web application UI logic and its backend
orchestration contracts, as a shallow embedding in Lean 4.

The React components are embedded as pure functions over explicit state:
each event handler becomes a function from its inputs and the observed
network outcome to the resulting component state.  Backend components that
exist only behind the HTTP API (the RAG retriever and the activity runner)
are modelled from the specification text, and are marked as such in their
doc comments.
-/

/-! ## A small JSON model

The UI builds request payloads as duck-typed object literals and reads
fields off parsed response bodies.  We model JSON values explicitly so that
the set of keys a payload carries is a provable property.
-/

inductive Json where
  | null : Json
  | bool : Bool → Json
  | str : String → Json
  | num : Int → Json
  | arr : List Json → Json
  | obj : List (String × Json) → Json
deriving BEq

def Json.keys : Json → List String
  | .obj fields => fields.map Prod.fst
  | _ => []

def Json.get : Json → String → Option Json
  | .obj fields, k => (fields.find? (fun p => p.1 == k)).map Prod.snd
  | _, _ => none

/-! ## Chat transcript messages

`messages` state entries in `App.jsx` and `MobileApp.jsx`: a role, a
content string, and (for assistant answers) the model identifier.
-/

structure TranscriptMsg where
  role : String
  content : String
  modelName : Option String
deriving DecidableEq, Repr

def historyJson (messages : List TranscriptMsg) : Json :=
  Json.arr <|
    (messages.filter (fun m => m.role == "user" || m.role == "assistant")).map
      (fun m => Json.obj [("role", .str m.role), ("content", .str m.content)])

/-! ## C1: the `/api/query` payloads

`App.jsx` lines 817-826 (desktop), `MobileApp.jsx` line 820 (first mobile
document) and line 2403 (second mobile document) each build the JSON body
sent to `POST /api/query`.  The desktop and the second mobile document
include `universe_id`; the first mobile document does not.
-/

def appQueryPayload (question model : String) (useContext : Bool)
    (messages : List TranscriptMsg) (timezone mode : String)
    (currentUniverseId : Option Nat) : Json :=
  Json.obj
    [ ("question", .str question)
    , ("model", .str model)
    , ("use_context", .bool useContext)
    , ("history", historyJson messages)
    , ("timezone", .str timezone)
    , ("mode", .str mode)
    , ("universe_id", match currentUniverseId with
        | some u => .num u
        | none => .null) ]

def mobileQueryPayloadV1 (question model : String) (useContext : Bool)
    (messages : List TranscriptMsg) (timezone mode : String) : Json :=
  Json.obj
    [ ("question", .str question)
    , ("model", .str model)
    , ("use_context", .bool useContext)
    , ("history", historyJson messages)
    , ("timezone", .str timezone)
    , ("mode", .str mode) ]

def mobileQueryPayloadV2 (question model : String) (useContext : Bool)
    (messages : List TranscriptMsg) (timezone mode : String)
    (currentUniverseId : Option Nat) : Json :=
  Json.obj
    [ ("question", .str question)
    , ("model", .str model)
    , ("use_context", .bool useContext)
    , ("history", historyJson messages)
    , ("timezone", .str timezone)
    , ("mode", .str mode)
    , ("universe_id", match currentUniverseId with
        | some u => .num u
        | none => .null) ]

/-- The assistant message the UI appends from a successful `/api/query`
response body: it reads `data.answer` and `data.model` and nothing else. -/
def assistantMsgFromResponse (data : Json) : TranscriptMsg :=
  { role := "assistant"
  , content := match data.get "answer" with
      | some (.str s) => s
      | _ => ""
  , modelName := match data.get "model" with
      | some (.str s) => some s
      | _ => none }

def requiredQueryFields : List String :=
  ["question", "model", "use_context", "history", "universe_id"]

/-- C1 counterexample: the chat submission of the first mobile document
(`MobileApp.jsx` line 820) does not carry a `universe_id` field, so the
claim that every chat submission carries all five fields is false. -/
theorem c1_counterexample :
    "universe_id" ∉
      (mobileQueryPayloadV1 "hello" "gpt-4o" true [] "UTC" "normal").keys ∧
    "question" ∈
      (mobileQueryPayloadV1 "hello" "gpt-4o" true [] "UTC" "normal").keys := by
  decide

/-- C1 amended: the desktop chat submission and the second mobile document
chat submission carry `question`, `model`, `use_context`, `history` and
`universe_id`; the first mobile document chat submission carries the first
four but not `universe_id`; and in every variant the assistant message the
UI builds from the response depends only on the `answer` and `model`
fields of the response body. -/
theorem c1_amended (question model : String) (useContext : Bool)
    (messages : List TranscriptMsg) (timezone mode : String)
    (universeId : Option Nat) :
    (∀ f ∈ requiredQueryFields,
      f ∈ (appQueryPayload question model useContext messages timezone mode
            universeId).keys) ∧
    (∀ f ∈ requiredQueryFields,
      f ∈ (mobileQueryPayloadV2 question model useContext messages timezone
            mode universeId).keys) ∧
    (∀ f ∈ ["question", "model", "use_context", "history"],
      f ∈ (mobileQueryPayloadV1 question model useContext messages timezone
            mode).keys) ∧
    "universe_id" ∉
      (mobileQueryPayloadV1 question model useContext messages timezone
        mode).keys ∧
    (∀ d₁ d₂ : Json, d₁.get "answer" = d₂.get "answer" →
      d₁.get "model" = d₂.get "model" →
      assistantMsgFromResponse d₁ = assistantMsgFromResponse d₂) := by
  refine ⟨?_, ?_, ?_, ?_, ?_⟩
  · intro f hf
    fin_cases hf
    all_goals simp [appQueryPayload, Json.keys]
  · intro f hf
    fin_cases hf
    all_goals simp [mobileQueryPayloadV2, Json.keys]
  · intro f hf
    fin_cases hf
    all_goals simp [mobileQueryPayloadV1, Json.keys]
  · simp [mobileQueryPayloadV1, Json.keys]
  · intro d₁ d₂ h₁ h₂
    simp [assistantMsgFromResponse, h₁, h₂]

/-- C1 amended, witness: the amended theorem applied at a concrete
submission, its two response-extensionality hypotheses discharged. -/
theorem c1_amended_witness :
    assistantMsgFromResponse (Json.obj [("answer", .str "hi"), ("model", .str "m")])
      = assistantMsgFromResponse
          (Json.obj [("answer", .str "hi"), ("model", .str "m"), ("extra", .null)]) :=
  (c1_amended "q" "m" true [] "UTC" "normal" (some 1)).2.2.2.2
    (Json.obj [("answer", .str "hi"), ("model", .str "m")])
    (Json.obj [("answer", .str "hi"), ("model", .str "m"), ("extra", .null)])
    rfl rfl

/-! ## C2: a chat turn and its error path

`App.jsx` lines 789-848: `handleSubmit` trims the input, returns early on
an empty question, an IRC-mode submission, or an in-flight request, and
otherwise appends the user message, issues exactly one fetch, and appends
either the answer or a single `Error: ...` assistant message; the
`finally` block resets the loading flag.
-/

/-- The JavaScript `String.prototype.trim`: strip leading and trailing
whitespace.  Implemented over the character list so that it evaluates by
kernel reduction. -/
def jsTrim (s : String) : String :=
  ⟨((s.toList.dropWhile Char.isWhitespace).reverse.dropWhile
      Char.isWhitespace).reverse⟩

inductive QueryOutcome where
  | ok (answer modelName : String)
  | httpError (detail : Option String)
  | netError (message : String)
deriving DecidableEq, Repr

/-- One complete chat turn of `handleSubmit` (non-IRC path): given the
transcript, the raw input, the loading flag and the chat mode, plus the
outcome the single fetch would produce, returns the transcript after the
turn, the loading flag after the turn, and how many `/api/query` fetches
were issued. -/
def chatTurn (messages : List TranscriptMsg) (input : String)
    (loading : Bool) (mode : String) (outcome : QueryOutcome) :
    List TranscriptMsg × Bool × Nat :=
  let question := jsTrim input
  if question = "" then (messages, loading, 0)
  else if mode = "irc" then (messages, loading, 0)
  else if loading then (messages, loading, 0)
  else
    let withUser := messages ++ [⟨"user", question, none⟩]
    match outcome with
    | .ok answer m => (withUser ++ [⟨"assistant", answer, some m⟩], false, 1)
    | .httpError d =>
        (withUser ++ [⟨"assistant", "Error: " ++ d.getD "Request failed", none⟩],
         false, 1)
    | .netError m =>
        (withUser ++ [⟨"assistant", "Error: " ++ m, none⟩], false, 1)

/-- C2: when the fetch of a real chat submission fails (non-ok HTTP
response or network error), the transcript gains the user message and then
exactly one assistant message whose text is `Error: ` followed by the
error detail, that message carries no model (it is not an answer), the
loading flag ends false, and exactly one fetch was issued (no retry). -/
theorem c2_error_single_message (messages : List TranscriptMsg)
    (input : String) (mode : String) (outcome : QueryOutcome)
    (hq : jsTrim input ≠ "") (hm : mode ≠ "irc")
    (hfail : (∃ d, outcome = .httpError d) ∨ ∃ m, outcome = .netError m) :
    ∃ detail,
      chatTurn messages input false mode outcome =
        (messages ++ [⟨"user", jsTrim input, none⟩] ++
          [⟨"assistant", "Error: " ++ detail, none⟩], false, 1) ∧
      (match outcome with
        | .httpError d => detail = d.getD "Request failed"
        | .netError m => detail = m
        | .ok _ _ => False) := by
  rcases hfail with ⟨d, rfl⟩ | ⟨m, rfl⟩
  · exact ⟨d.getD "Request failed", by simp [chatTurn, hq, hm], rfl⟩
  · exact ⟨m, by simp [chatTurn, hq, hm], rfl⟩

/-- C2 witness: the error path evaluated on a concrete failing submission. -/
theorem c2_error_single_message_witness :
    ∃ detail,
      chatTurn [] " hi " false "normal" (.httpError (some "boom")) =
        ([⟨"user", "hi", none⟩] ++ [⟨"assistant", "Error: " ++ detail, none⟩],
         false, 1) ∧
      (match QueryOutcome.httpError (some "boom") with
        | .httpError d => detail = d.getD "Request failed"
        | .netError m => detail = m
        | .ok _ _ => False) :=
  c2_error_single_message [] " hi " "normal" (.httpError (some "boom"))
    (by decide) (by decide) (Or.inl ⟨some "boom", rfl⟩)

/-! ## C6: restore is all-or-nothing at the interface

`App.jsx` lines 343-368: `handleRestore` posts the archive, and on a
non-ok response throws with the server detail, so the catch branch sets an
error status and the success branch (status text, file reset, and the
`onRestored` refresh callback) is never reached.
-/

inductive RestoreOutcome where
  | ok (db : Bool) (images documents : Nat) (chroma : Bool)
  | httpError (detail : Option String)
  | netError (message : String)
deriving DecidableEq, Repr

structure RestoreEffects where
  statusType : String
  statusText : String
  refreshed : Bool
  fileCleared : Bool
deriving DecidableEq, Repr

/-- The observable effects of `handleRestore`: `none` when the early
returns fire (no file selected, or the confirm dialog declined). -/
def handleRestore (fileSelected confirmed : Bool)
    (outcome : RestoreOutcome) : Option RestoreEffects :=
  if !fileSelected then none
  else if !confirmed then none
  else some <| match outcome with
    | .ok db images documents chroma =>
        { statusType := "success"
        , statusText := "Restore complete! DB: " ++ (if db then "yes" else "no")
            ++ ", Images: " ++ toString images
            ++ ", Documents: " ++ toString documents
            ++ ", Vector store: "
            ++ (if chroma then "yes" else "no (use Rebuild Index)") ++ "."
        , refreshed := true
        , fileCleared := true }
    | .httpError d =>
        { statusType := "error"
        , statusText := "Restore failed: " ++ d.getD "Restore failed"
        , refreshed := false
        , fileCleared := false }
    | .netError m =>
        { statusType := "error"
        , statusText := "Restore failed: " ++ m
        , refreshed := false
        , fileCleared := false }

/-- C6: on a non-ok `/api/restore` response the UI surfaces an error
status built from the server detail and does not invoke the post-restore
refresh callback; on a network error likewise; only on a successful
response does it report the restored components and refresh. -/
theorem c6_restore_atomic (outcome : RestoreOutcome) :
    (∀ d, outcome = .httpError d →
      handleRestore true true outcome =
        some { statusType := "error"
             , statusText := "Restore failed: " ++ d.getD "Restore failed"
             , refreshed := false
             , fileCleared := false }) ∧
    (∀ m, outcome = .netError m →
      handleRestore true true outcome =
        some { statusType := "error"
             , statusText := "Restore failed: " ++ m
             , refreshed := false
             , fileCleared := false }) ∧
    (∀ db images documents chroma, outcome = .ok db images documents chroma →
      ∃ fx, handleRestore true true outcome = some fx ∧
        fx.statusType = "success" ∧ fx.refreshed = true) := by
  refine ⟨?_, ?_, ?_⟩
  · rintro d rfl; rfl
  · rintro m rfl; rfl
  · rintro db images documents chroma rfl
    exact ⟨_, rfl, rfl, rfl⟩

/-- C6 witness: the theorem applied to a concrete failing restore. -/
theorem c6_restore_atomic_witness :
    handleRestore true true (.httpError (some "db missing")) =
      some { statusType := "error"
           , statusText := "Restore failed: " ++ (some "db missing").getD "Restore failed"
           , refreshed := false
           , fileCleared := false } :=
  (c6_restore_atomic (.httpError (some "db missing"))).1 (some "db missing") rfl

/-! ## C7: multi-file document upload

`ArchivePanel.jsx` lines 153-183: `handleUpload` iterates over the
selected files in order, POSTs each one to
`/api/documents/upload?universe_id=...`, pushes the error detail of each
non-ok response onto an `errors` array (never re-posting the file and
never breaking out of the loop), and afterwards shows the joined errors as
one `uploadError` string.
-/

inductive UploadResult where
  | ok
  | httpError (detail : Option String)
deriving DecidableEq, Repr

/-- One upload request as issued by the loop body: the target universe id
(`universeId || 1`) and the file name. -/
structure UploadRequest where
  universe_id : Nat
  fileName : String
deriving DecidableEq, Repr

/-- The upload loop: walks the file list in order; for every file it
issues one request, and a failing file contributes its error detail (or
the fallback text) and does not stop the walk.  Returns the requests
issued, in order, and the collected error strings, in order. -/
def uploadLoop (universeId : Option Nat) :
    List (String × UploadResult) → List UploadRequest × List String
  | [] => ([], [])
  | (name, r) :: rest =>
    let (reqs, errs) := uploadLoop universeId rest
    (⟨universeId.getD 1, name⟩ :: reqs,
     match r with
     | .ok => errs
     | .httpError d => d.getD ("Failed to upload " ++ name) :: errs)

/-- The `uploadError` string shown to the user after the loop. -/
def uploadErrorText (universeId : Option Nat)
    (files : List (String × UploadResult)) : String :=
  let errs := (uploadLoop universeId files).2
  if errs = [] then "" else String.intercalate "; " errs

/-- C7: every selected file is posted exactly once, in selection order,
with the current universe id (defaulting to 1); the collected errors are
exactly the details of the failing files in order (with a per-file
fallback text); failures do not remove later files from the request list;
and the user-visible error is the single string joining those details. -/
theorem c7_upload_continue (universeId : Option Nat)
    (files : List (String × UploadResult)) :
    (uploadLoop universeId files).1 =
      files.map (fun f => ⟨universeId.getD 1, f.1⟩) ∧
    (uploadLoop universeId files).2 =
      (files.filter (fun f => f.2 ≠ .ok)).map
        (fun f => match f.2 with
          | .httpError d => d.getD ("Failed to upload " ++ f.1)
          | .ok => "") ∧
    uploadErrorText universeId files =
      (if (uploadLoop universeId files).2 = [] then ""
       else String.intercalate "; " (uploadLoop universeId files).2) := by
  refine ⟨?_, ?_, rfl⟩
  · induction files with
    | nil => rfl
    | cons f rest ih =>
      obtain ⟨name, r⟩ := f
      simp [uploadLoop, ih]
  · induction files with
    | nil => rfl
    | cons f rest ih =>
      obtain ⟨name, r⟩ := f
      cases r with
      | ok => simpa [uploadLoop] using ih
      | httpError d => simpa [uploadLoop] using ih

/-! ## C3: the retriever (modelled from the spec)

No backend code is present under `src/`; the retriever exists only behind
`POST /api/query`.  It is modelled from the spec: embed the query, run a
nearest-neighbour search over the vector store restricted to the query
universe, and return the top-k chunks.
-/

/-- A chunk in the vector store, keyed by source entity and carrying its
embedding and the Universe it belongs to. -/
structure Chunk where
  entity_type : String
  entity_id : Nat
  chunk_index : Nat
  content : String
  universe_id : Nat
  embedding : List Int
deriving DecidableEq, Repr

/-- Squared euclidean distance between two embedding vectors. -/
def sqDist (a b : List Int) : Int :=
  ((a.zip b).map (fun p => (p.1 - p.2) * (p.1 - p.2))).sum

/-- Nearer-to-the-query ordering on chunks. -/
def nearer (queryEmbedding : List Int) (a b : Chunk) : Prop :=
  sqDist queryEmbedding a.embedding ≤ sqDist queryEmbedding b.embedding

instance (queryEmbedding : List Int) : DecidableRel (nearer queryEmbedding) :=
  fun a b =>
    inferInstanceAs (Decidable
      (sqDist queryEmbedding a.embedding ≤ sqDist queryEmbedding b.embedding))

/-- Modelled from the spec: `retrieve(query, k)` is missing from `src/`
(only the HTTP API it serves is visible).  Per the spec it embeds the
query, performs nearest-neighbour search against the vector store
restricted to the current Universe, and returns the top-k chunks. -/
def retrieve (store : List Chunk) (queryEmbedding : List Int)
    (universeId k : Nat) : List Chunk :=
  ((store.filter (fun c => c.universe_id == universeId)).insertionSort
      (nearer queryEmbedding)).take k

/-- C3: `retrieve` returns at most `k` chunks, and every returned chunk
belongs to the Universe of the query. -/
theorem c3_retrieve_bounds (store : List Chunk) (queryEmbedding : List Int)
    (universeId k : Nat) :
    (retrieve store queryEmbedding universeId k).length ≤ k ∧
    ∀ c ∈ retrieve store queryEmbedding universeId k,
      c.universe_id = universeId := by
  constructor
  · calc (retrieve store queryEmbedding universeId k).length
        ≤ min k (((store.filter (fun c => c.universe_id == universeId)).insertionSort
            (nearer queryEmbedding)).length) := by
          simp [retrieve]
      _ ≤ k := Nat.min_le_left _ _
  · intro c hc
    have hsorted :
        c ∈ (store.filter (fun w => w.universe_id == universeId)).insertionSort
          (nearer queryEmbedding) := List.take_subset _ _ hc
    have hfilter : c ∈ store.filter (fun w => w.universe_id == universeId) :=
      (List.perm_insertionSort (nearer queryEmbedding) _).subset hsorted
    simpa using (List.mem_filter.mp hfilter).2

/-- C3 witness: the retriever evaluated on a concrete store, discharging
the membership hypothesis of the second conjunct. -/
theorem c3_retrieve_bounds_witness :
    (retrieve [⟨"note", 1, 0, "a", 7, [0, 1]⟩, ⟨"note", 2, 0, "b", 8, [5, 5]⟩]
        [0, 0] 7 1).length ≤ 1 ∧
    (⟨"note", 1, 0, "a", 7, [0, 1]⟩ : Chunk).universe_id = 7 :=
  ⟨(c3_retrieve_bounds [⟨"note", 1, 0, "a", 7, [0, 1]⟩,
      ⟨"note", 2, 0, "b", 8, [5, 5]⟩] [0, 0] 7 1).1,
   (c3_retrieve_bounds [⟨"note", 1, 0, "a", 7, [0, 1]⟩,
      ⟨"note", 2, 0, "b", 8, [5, 5]⟩] [0, 0] 7 1).2
     ⟨"note", 1, 0, "a", 7, [0, 1]⟩ (by decide)⟩

/-! ## C4: the run-output poll

`ActivityPanel.jsx` lines 103-121: `showRunOutput` fetches the run once;
only when that fetch observed status `running` does it start a 3-second
interval, and the interval callback clears the interval when a poll
observes a status other than `running`.  Time is modelled in seconds; the
server-side status is an arbitrary trace `server : Nat → RunStatus`, the
modal is opened at time 0, and poll `k` (for `k ≥ 1`) runs at time `3*k`.
-/

inductive RunStatus where
  | running
  | completed
  | failed
deriving DecidableEq, Repr

/-- Whether interval poll `k` fires (at time `3*k`): the poll fires when
the interval was started by the initial fetch and no earlier poll had
cleared it, i.e. every earlier observation saw `running`. -/
def pollFires (server : Nat → RunStatus) : Nat → Bool
  | 0 => false
  | 1 => server 0 == RunStatus.running
  | k + 2 => pollFires server (k + 1) && (server (3 * (k + 1)) == RunStatus.running)

/-- A server trace that leaves `running` at time 2, strictly between the
opening fetch and the first interval poll. -/
def cexServer (t : Nat) : RunStatus :=
  if t < 2 then RunStatus.running else RunStatus.completed

/-- C4 counterexample: with the trace `cexServer` the status has left
`running` at time 2, yet the first interval poll still fires at time 3, so
the claim that no poll ever fires after the status has left `running` is
false. -/
theorem c4_counterexample :
    pollFires cexServer 1 = true ∧ 2 < 3 * 1 ∧
      cexServer 2 ≠ RunStatus.running := by
  decide

/-- C4 amended: opening the run-output view on a run whose fetched status
is not `running` starts no poll; a poll fires only if the opening fetch
and every earlier poll observed `running`; and once a poll observes a
status other than `running` the interval is cleared, so no later poll ever
fires.  (At most one poll — the clearing one — can fire after the status
has actually left `running`.) -/
theorem c4_amended (server : Nat → RunStatus) :
    (server 0 ≠ RunStatus.running → ∀ k, pollFires server k = false) ∧
    (∀ k, pollFires server k = true →
      server 0 = RunStatus.running ∧
      ∀ j, 1 ≤ j → j < k → server (3 * j) = RunStatus.running) ∧
    (∀ k, 1 ≤ k → server (3 * k) ≠ RunStatus.running →
      ∀ k', k < k' → pollFires server k' = false) := by
  have hmono : ∀ k, pollFires server k = true →
      server 0 = RunStatus.running ∧
      ∀ j, 1 ≤ j → j < k → server (3 * j) = RunStatus.running := by
    intro k
    induction k with
    | zero => intro h; exact absurd h (by simp [pollFires])
    | succ n ih =>
      intro h
      match n, h with
      | 0, h =>
        refine ⟨by simpa [pollFires] using h, ?_⟩
        intro j hj1 hj; omega
      | m + 1, h =>
        have h' := h
        simp only [pollFires, Bool.and_eq_true] at h'
        obtain ⟨hprev, hobs⟩ := h'
        obtain ⟨h0, hall⟩ := ih hprev
        refine ⟨h0, ?_⟩
        intro j hj1 hj
        rcases Nat.lt_or_ge j (m + 1) with hlt | hge
        · exact hall j hj1 hlt
        · have : j = m + 1 := by omega
          subst this
          simpa using hobs
  refine ⟨?_, hmono, ?_⟩
  · intro h0 k
    by_contra hk
    have := (hmono k (by simpa using hk)).1
    exact h0 this
  · intro k hk1 hobs k' hkk'
    by_contra hk'
    have := (hmono k' (by simpa using hk')).2 k hk1 hkk'
    exact hobs this

/-- C4 amended, witness: on a trace that is never `running`, the theorem
yields that no poll fires. -/
theorem c4_amended_witness :
    pollFires (fun _ => RunStatus.completed) 4 = false :=
  (c4_amended (fun _ => RunStatus.completed)).1 (by decide) 4

/-! ## C8: the schedule field of panel-managed Activities

`ActivityPanel.jsx` lines 5-10 define the four `SCHEDULES` options, line
16 defaults the form schedule to `manual`, lines 37-50 are
`startCreate`/`startEdit`, lines 52-74 are `handleSave`, and lines 193-196
restrict the schedule `<select>` to the `SCHEDULES` options.  The panel is
modelled as a state machine over those handlers; the select control is
modelled by an event that picks one of the offered options by index.
-/

structure ATask where
  member_id : Nat
  instruction : String
deriving DecidableEq, Repr

/-- The `SCHEDULES` constant: value and label of each offered option. -/
def SCHEDULES : List (String × String) :=
  [ ("manual", "Manual only")
  , ("hourly", "Every hour")
  , ("daily", "Every day")
  , ("weekly", "Every week") ]

def scheduleValues : List String := SCHEDULES.map Prod.fst

structure ActivityForm where
  name : String
  prompt : String
  schedule : String
  tasks : List ATask
deriving DecidableEq, Repr

structure PActivity where
  id : Nat
  name : String
  prompt : String
  schedule : String
  tasks : List ATask
deriving DecidableEq, Repr

inductive PanelEvent where
  | startCreate
  | startEdit (idx : Nat)
  | selectSchedule (idx : Nat)
  | setName (s : String)
  | save (newId : Nat)
  | cancel
deriving DecidableEq, Repr

/-- `editing` state: `none` = modal closed, `some none` = creating
(the string literal new), `some (some id)` = editing the activity `id`. -/
structure PanelState where
  activities : List PActivity
  form : ActivityForm
  editing : Option (Option Nat)
deriving DecidableEq, Repr

/-- Initial component state: no panel-created activities, the line-16 form
default with the schedule value manual, modal closed. -/
def panelInit : PanelState :=
  { activities := []
  , form := { name := "", prompt := "", schedule := "manual", tasks := [] }
  , editing := none }

def panelStep (s : PanelState) : PanelEvent → PanelState
  | .startCreate =>
    { s with editing := some none
           , form := { name := "", prompt := "", schedule := "manual", tasks := [] } }
  | .startEdit idx =>
    match s.activities[idx]? with
    | some a =>
      { s with editing := some (some a.id)
             , form := { name := a.name, prompt := a.prompt
                       , schedule := a.schedule, tasks := a.tasks } }
    | none => s
  | .selectSchedule idx =>
    match scheduleValues[idx]? with
    | some v => { s with form := { s.form with schedule := v } }
    | none => s
  | .setName n => { s with form := { s.form with name := n } }
  | .save newId =>
    match s.editing with
    | none => s
    | some none =>
      { s with activities := s.activities ++
          [{ id := newId, name := s.form.name, prompt := s.form.prompt
           , schedule := s.form.schedule, tasks := s.form.tasks }]
             , editing := none }
    | some (some i) =>
      { s with activities := s.activities.map (fun a =>
          if a.id = i then
            { id := a.id, name := s.form.name, prompt := s.form.prompt
            , schedule := s.form.schedule, tasks := s.form.tasks }
          else a)
             , editing := none }
  | .cancel => { s with editing := none }

def panelRun (events : List PanelEvent) : PanelState :=
  events.foldl panelStep panelInit

/-- The schedule invariant: the form schedule and every stored activity
schedule is one of the four offered values. -/
def ScheduleInv (s : PanelState) : Prop :=
  s.form.schedule ∈ scheduleValues ∧
  ∀ a ∈ s.activities, a.schedule ∈ scheduleValues

theorem scheduleInv_init : ScheduleInv panelInit := by
  constructor
  · simp [panelInit, scheduleValues, SCHEDULES]
  · intro a ha; simp [panelInit] at ha

theorem scheduleInv_step (s : PanelState) (e : PanelEvent)
    (h : ScheduleInv s) : ScheduleInv (panelStep s e) := by
  obtain ⟨hform, hacts⟩ := h
  cases e with
  | startCreate =>
    refine ⟨?_, hacts⟩
    simp [panelStep, scheduleValues, SCHEDULES]
  | startEdit idx =>
    simp only [panelStep]
    cases hidx : s.activities[idx]? with
    | none => exact ⟨hform, hacts⟩
    | some a =>
      refine ⟨?_, hacts⟩
      exact hacts a (List.getElem?_mem hidx)
  | selectSchedule idx =>
    simp only [panelStep]
    cases hidx : scheduleValues[idx]? with
    | none => exact ⟨hform, hacts⟩
    | some v =>
      refine ⟨List.getElem?_mem hidx, hacts⟩
  | setName n => exact ⟨hform, hacts⟩
  | save newId =>
    simp only [panelStep]
    cases hed : s.editing with
    | none => exact ⟨hform, hacts⟩
    | some o =>
      cases o with
      | none =>
        refine ⟨hform, ?_⟩
        intro a ha
        rcases List.mem_append.mp ha with hmem | hmem
        · exact hacts a hmem
        · simp only [List.mem_singleton] at hmem
          subst hmem
          exact hform
      | some i =>
        refine ⟨hform, ?_⟩
        intro a ha
        obtain ⟨b, hb, hab⟩ := List.mem_map.mp ha
        by_cases hbi : b.id = i
        · simp only [hbi, if_pos rfl] at hab
          subst hab
          exact hform
        · simp only [if_neg hbi] at hab
          subst hab
          exact hacts b hb
  | cancel => exact ⟨hform, hacts⟩

/-- C8: after any sequence of Activity-panel events, every activity
created or edited through the panel has its schedule equal to one of
exactly the four offered values, and the form schedule (default `manual`)
is always one of them as well. -/
theorem c8_schedule_invariant (events : List PanelEvent) :
    scheduleValues = ["manual", "hourly", "daily", "weekly"] ∧
    (panelRun events).form.schedule ∈ scheduleValues ∧
    ∀ a ∈ (panelRun events).activities, a.schedule ∈ scheduleValues := by
  have hinv : ScheduleInv (panelRun events) := by
    unfold panelRun
    induction events using List.reverseRecOn with
    | nil => exact scheduleInv_init
    | append_singleton es e ih =>
      rw [List.foldl_append, List.foldl_cons, List.foldl_nil]
      exact scheduleInv_step _ e ih
  exact ⟨rfl, hinv.1, hinv.2⟩

/-- C8 witness: the invariant evaluated after a concrete event sequence
that creates an activity with an edited schedule. -/
theorem c8_schedule_invariant_witness :
    ∀ a ∈ (panelRun [.startCreate, .setName "Daily Review",
        .selectSchedule 2, .save 1]).activities,
      a.schedule ∈ scheduleValues := by
  have h := c8_schedule_invariant [.startCreate, .setName "Daily Review",
    .selectSchedule 2, .save 1]
  exact h.2.2

/-! ## C10: at most one `/api/query` request in flight per panel

`App.jsx` lines 789-811 (and the same guards in both mobile documents):
`handleSubmit` returns before fetching when the trimmed input is empty and
when `loading` is already true; a fetch sets `loading` and its `finally`
clears it.  The panel is modelled as a state machine in which a submit and
the settlement of an outstanding request are separate events, so that
overlapping submissions are representable.
-/

structure ChatPanelState where
  input : String
  loading : Bool
  inflight : Nat
  sent : List String
deriving DecidableEq, Repr

inductive ChatEvent where
  | setInput (s : String)
  | submit (mode : String)
  | settle
deriving DecidableEq, Repr

def chatPanelInit : ChatPanelState :=
  { input := "", loading := false, inflight := 0, sent := [] }

/-- One event of the chat panel.  `submit` follows the guard order of
`handleSubmit`: empty trimmed question → return; IRC mode → websocket
send, no query fetch; `loading` → return; otherwise clear the input, set
`loading`, and issue the fetch.  `settle` is the `finally` block of an
outstanding fetch resolving. -/
def chatStep (s : ChatPanelState) : ChatEvent → ChatPanelState
  | .setInput v => { s with input := v }
  | .submit mode =>
    let question := jsTrim s.input
    if question = "" then s
    else if mode = "irc" then { s with input := "" }
    else if s.loading then s
    else
      { s with input := "", loading := true, inflight := s.inflight + 1
             , sent := s.sent ++ [question] }
  | .settle =>
    if s.inflight = 0 then s
    else { s with loading := false, inflight := s.inflight - 1 }

def chatRun (events : List ChatEvent) : ChatPanelState :=
  events.foldl chatStep chatPanelInit

/-- The strengthened induction invariant: the loading flag tracks the
outstanding request exactly, and only nonempty trimmed questions were ever
sent. -/
def ChatInv (s : ChatPanelState) : Prop :=
  s.inflight ≤ 1 ∧ (s.loading = true ↔ s.inflight = 1) ∧
  ∀ q ∈ s.sent, q ≠ ""

theorem chatInv_init : ChatInv chatPanelInit := by
  refine ⟨by simp [chatPanelInit], by simp [chatPanelInit], ?_⟩
  intro q hq
  simp [chatPanelInit] at hq

theorem chatInv_step (s : ChatPanelState) (e : ChatEvent)
    (h : ChatInv s) : ChatInv (chatStep s e) := by
  obtain ⟨hle, hiff, hsent⟩ := h
  cases e with
  | setInput v => exact ⟨hle, hiff, hsent⟩
  | submit mode =>
    simp only [chatStep]
    by_cases hq : jsTrim s.input = ""
    · simp only [if_pos hq]
      exact ⟨hle, hiff, hsent⟩
    · simp only [if_neg hq]
      by_cases hm : mode = "irc"
      · simp only [if_pos hm]
        exact ⟨hle, hiff, hsent⟩
      · simp only [if_neg hm]
        by_cases hl : s.loading
        · simp only [if_pos hl]
          exact ⟨hle, hiff, hsent⟩
        · simp only [if_neg hl]
          have hz : s.inflight = 0 := by
            rcases Nat.lt_or_ge s.inflight 1 with h1 | h1
            · omega
            · have : s.inflight = 1 := by omega
              exact absurd (hiff.mpr this) (by simpa using hl)
          refine ⟨by simp [hz], by simp [hz], ?_⟩
          intro q hq'
          rcases List.mem_append.mp hq' with hmem | hmem
          · exact hsent q hmem
          · simp only [List.mem_singleton] at hmem
            subst hmem
            exact hq
  | settle =>
    simp only [chatStep]
    by_cases hz : s.inflight = 0
    · simp only [if_pos hz]
      exact ⟨hle, hiff, hsent⟩
    · simp only [if_neg hz]
      have h1 : s.inflight = 1 := by omega
      refine ⟨by simp [h1], by simp [h1], hsent⟩

/-- C10: after any interleaving of input edits, submissions, and request
settlements, the chat panel has at most one `/api/query` request
outstanding, and every question it ever sent is nonempty (submissions with
an empty trimmed input never fetch). -/
theorem c10_single_inflight (events : List ChatEvent) :
    (chatRun events).inflight ≤ 1 ∧
    ∀ q ∈ (chatRun events).sent, q ≠ "" := by
  have hinv : ChatInv (chatRun events) := by
    unfold chatRun
    induction events using List.reverseRecOn with
    | nil => exact chatInv_init
    | append_singleton es e ih =>
      rw [List.foldl_append, List.foldl_cons, List.foldl_nil]
      exact chatInv_step _ e ih
  exact ⟨hinv.1, hinv.2.2⟩

/-- C10 witness: a double submission with an in-flight request, plus a
settlement and a new submission, still never exceeds one outstanding
request, with the membership hypothesis discharged on the sent list. -/
theorem c10_single_inflight_witness :
    (chatRun [.setInput "hello", .submit "normal", .submit "normal",
        .settle, .setInput " ", .submit "normal"]).inflight ≤ 1 ∧
    "hello" ≠ "" :=
  ⟨(c10_single_inflight [.setInput "hello", .submit "normal",
      .submit "normal", .settle, .setInput " ", .submit "normal"]).1,
   (c10_single_inflight [.setInput "hello", .submit "normal",
      .submit "normal", .settle, .setInput " ", .submit "normal"]).2
     "hello" (by decide)⟩

/-! ## C5: run responses keep the task order, and the UI preserves it

The backend runner is not under `src/`; it is modelled from the spec
(section 4.2): `trigger(activity)` walks the ordered Task list, one chat
completion per task, appending one Response per completed task and
stopping on the first error.  The run keeps its own Response list, so
later edits of the Activity task list cannot reorder it.  From the source,
`ActivityPanel.jsx` lines 259-266 (`buildRunNoteBody`) and lines 317-334
(the run modal) both render `run.responses` in array order with labels
`Step 1..n`.
-/

structure TeamMember where
  id : Nat
  name : String
  title : String
  profile : String
deriving DecidableEq, Repr

structure AResponse where
  member_name : String
  member_title : String
  task_instruction : String
  response : String
deriving DecidableEq, Repr

/-- Modelled from the spec: `trigger(activity)` is missing from `src/`.
Per the spec it runs each Task in order, building each prompt from the
Activity prompt, the accumulated prior outputs, the task instruction and
the member profile; on a chat error the run stops (status `failed`), on
success of all tasks it is `completed`. -/
def runTasks (chat : String → Option String) (memberOf : Nat → TeamMember)
    (activityPrompt acc : String) :
    List ATask → List AResponse × RunStatus
  | [] => ([], RunStatus.completed)
  | t :: ts =>
    let m := memberOf t.member_id
    match chat (activityPrompt ++ acc ++ t.instruction ++ m.profile) with
    | none => ([], RunStatus.failed)
    | some out =>
      let rest := runTasks chat memberOf activityPrompt (acc ++ out) ts
      (⟨m.name, m.title, t.instruction, out⟩ :: rest.1, rest.2)

/-- One section of the note body, exactly the map body of
`buildRunNoteBody` at index `i`. -/
def noteSection (i : Nat) (r : AResponse) : String :=
  let header := "### Step " ++ toString (i + 1) ++ ": " ++ r.member_name ++
    (if r.member_title ≠ "" then " (" ++ r.member_title ++ ")" else "")
  let task := if r.task_instruction ≠ "" then
      "\n**Task:** " ++ r.task_instruction ++ "\n" else "\n"
  header ++ task ++ "\n" ++ r.response

def noteSections (responses : List AResponse) : List String :=
  responses.enum.map (fun p => noteSection p.1 p.2)

/-- `buildRunNoteBody` from `ActivityPanel.jsx` lines 259-266. -/
def buildRunNoteBody (responses : List AResponse) : String :=
  String.intercalate "\n\n---\n\n" (noteSections responses)

/-- The step labels and responses the run modal renders, in render order
(`ActivityPanel.jsx` lines 317-334). -/
def runModalSteps (responses : List AResponse) : List (String × AResponse) :=
  responses.enum.map (fun p => ("Step " ++ toString (p.1 + 1), p.2))

/-- C5: a run's responses follow the task list as it was when the run
started: the response list is task-for-task aligned with a prefix of the
tasks (the whole list when the run completes); and both presentations
preserve that order — section `i` of the note body is the section of
response `i` labelled Step `i+1`, and entry `i` of the run modal is
response `i` labelled Step `i+1`. -/
theorem c5_run_order (chat : String → Option String)
    (memberOf : Nat → TeamMember) (activityPrompt acc : String)
    (tasks : List ATask) (responses : List AResponse) :
    ((runTasks chat memberOf activityPrompt acc tasks).1.map
        (fun r => r.task_instruction) =
      (tasks.take
          (runTasks chat memberOf activityPrompt acc tasks).1.length).map
        (fun t => t.instruction)) ∧
    ((runTasks chat memberOf activityPrompt acc tasks).2 =
        RunStatus.completed →
      (runTasks chat memberOf activityPrompt acc tasks).1.length =
        tasks.length) ∧
    (noteSections responses).length = responses.length ∧
    (∀ i (h : i < responses.length),
      (noteSections responses).get
          ⟨i, by simpa [noteSections] using h⟩ =
        noteSection i (responses.get ⟨i, h⟩)) ∧
    (runModalSteps responses).length = responses.length ∧
    (∀ i (h : i < responses.length),
      (runModalSteps responses).get
          ⟨i, by simpa [runModalSteps] using h⟩ =
        ("Step " ++ toString (i + 1), responses.get ⟨i, h⟩)) := by
  refine ⟨?_, ?_, by simp [noteSections], ?_, by simp [runModalSteps], ?_⟩
  · induction tasks generalizing acc with
    | nil => simp [runTasks]
    | cons t ts ih =>
      simp only [runTasks]
      cases chat (activityPrompt ++ acc ++ t.instruction ++
          (memberOf t.member_id).profile) with
      | none => simp
      | some out => simpa using ih (acc ++ out)
  · induction tasks generalizing acc with
    | nil => simp [runTasks]
    | cons t ts ih =>
      simp only [runTasks]
      cases chat (activityPrompt ++ acc ++ t.instruction ++
          (memberOf t.member_id).profile) with
      | none => simp
      | some out =>
        intro hst
        simpa using ih (acc ++ out) (by simpa using hst)
  · intro i h
    simp [noteSections, List.getElem_enum]
  · intro i h
    simp [runModalSteps, List.getElem_enum]

/-- C5 witness: the spec example, an activity of two tasks; with a chat
oracle that always succeeds the run completes with both responses in task
order, and the index hypotheses are discharged at step 0. -/
theorem c5_run_order_witness :
    ((runTasks (fun _ => some "out") (fun i => ⟨i, "M", "T", "P"⟩) "p" ""
        [⟨1, "find 3 facts"⟩, ⟨2, "summarize"⟩]).1.map
        (fun r => r.task_instruction) =
      (([⟨1, "find 3 facts"⟩, ⟨2, "summarize"⟩] : List ATask).take
          (runTasks (fun _ => some "out") (fun i => ⟨i, "M", "T", "P"⟩) "p" ""
            [⟨1, "find 3 facts"⟩, ⟨2, "summarize"⟩]).1.length).map
        (fun t => t.instruction)) ∧
    (runModalSteps [⟨"M", "T", "find 3 facts", "out"⟩]).get
        ⟨0, by simp [runModalSteps]⟩ =
      ("Step " ++ toString 1, ([⟨"M", "T", "find 3 facts", "out"⟩] :
          List AResponse).get ⟨0, by simp⟩) :=
  ⟨(c5_run_order (fun _ => some "out") (fun i => ⟨i, "M", "T", "P"⟩) "p" ""
      [⟨1, "find 3 facts"⟩, ⟨2, "summarize"⟩] []).1,
   (c5_run_order (fun _ => some "out") (fun i => ⟨i, "M", "T", "P"⟩) "p" ""
      [⟨1, "find 3 facts"⟩, ⟨2, "summarize"⟩]
      [⟨"M", "T", "find 3 facts", "out"⟩]).2.2.2.2.2 0 (by simp)⟩

/-! ## C9: `flattenForSelect` versus `buildTree`

`CategoryTree` (src/unnamed/part_001 lines 5-24, and the emoji variant in
part_002 lines 7-26, which has the same two functions verbatim):
`buildTree` recursively collects the categories whose `parent_id` matches,
sorted by name, and `flattenForSelect` produces the flat `<select>` list
with a depth per entry.  The JavaScript recursion terminates exactly when
the part of the `parent_id` graph reachable from `null` is acyclic; the
embedding makes the recursion depth explicit as fuel, and the theorems
show that `categories.length` fuel suffices on acyclic input.
-/

structure Category where
  id : Nat
  parent_id : Option Nat
  name : String
deriving DecidableEq, Repr

/-- The sort comparator `(a, b) => a.name.localeCompare(b.name)`. -/
def catLe (a b : Category) : Prop := a.name ≤ b.name

instance : DecidableRel catLe :=
  fun a b => inferInstanceAs (Decidable (a.name ≤ b.name))

instance : IsTotal Category catLe := ⟨fun a b => le_total a.name b.name⟩

instance : IsTrans Category catLe := ⟨fun _ _ _ h₁ h₂ => le_trans h₁ h₂⟩

/-- `.sort((a, b) => a.name.localeCompare(b.name))`: a stable sort by
name, as JavaScript `Array.prototype.sort` is stable. -/
def sortByName (l : List Category) : List Category := l.insertionSort catLe

inductive CatTree where
  | node (cat : Category) (children : List CatTree)

def CatTree.cat : CatTree → Category
  | .node c _ => c

/-- `buildTree(categories, parentId)` with explicit recursion fuel. -/
def buildTree (fuel : Nat) (categories : List Category)
    (parentId : Option Nat) : List CatTree :=
  match fuel with
  | 0 => []
  | fuel + 1 =>
    (sortByName (categories.filter (fun c => c.parent_id == parentId))).map
      (fun c => CatTree.node c (buildTree fuel categories (some c.id)))

/-- `flattenForSelect(categories, parentId, depth)` with explicit
recursion fuel: each entry is the category together with its `depth`
field. -/
def flattenForSelect (fuel : Nat) (categories : List Category)
    (parentId : Option Nat) (depth : Nat) : List (Category × Nat) :=
  match fuel with
  | 0 => []
  | fuel + 1 =>
    (sortByName (categories.filter (fun c => c.parent_id == parentId))).flatMap
      (fun c =>
        (c, depth) :: flattenForSelect fuel categories (some c.id) (depth + 1))

/-- The depth-first pre-order flattening of a forest, annotating every
node with its nesting depth.  This is the claim-side definition of what
`flattenForSelect` should produce from `buildTree`. -/
def flattenTree (depth : Nat) : List CatTree → List (Category × Nat)
  | [] => []
  | CatTree.node c ch :: rest =>
    (c, depth) :: (flattenTree (depth + 1) ch ++ flattenTree depth rest)

theorem flattenTree_map_node (depth : Nat) (l : List Category)
    (g : Category → List CatTree) :
    flattenTree depth (l.map (fun c => CatTree.node c (g c))) =
      l.flatMap (fun c => (c, depth) :: flattenTree (depth + 1) (g c)) := by
  induction l with
  | nil => simp [flattenTree]
  | cons c l ih => simp [flattenTree, ih]

theorem flattenForSelect_eq_flattenTree (fuel : Nat) (cats : List Category)
    (parentId : Option Nat) (depth : Nat) :
    flattenForSelect fuel cats parentId depth =
      flattenTree depth (buildTree fuel cats parentId) := by
  induction fuel generalizing parentId depth with
  | zero => simp [flattenForSelect, buildTree, flattenTree]
  | succ fuel ih =>
    simp only [flattenForSelect, buildTree, flattenTree_map_node]
    have hfun : (fun c =>
        (c, depth) :: flattenForSelect fuel cats (some c.id) (depth + 1)) =
        (fun c =>
          (c, depth) :: flattenTree (depth + 1) (buildTree fuel cats (some c.id))) :=
      funext fun c => by rw [ih]
    rw [hfun]

/-- One step of the `parent_id` relation among the given categories: `c`
is a child of `p`. -/
def childOf (cats : List Category) (c p : Category) : Prop :=
  c ∈ cats ∧ p ∈ cats ∧ c.parent_id = some p.id

/-- The `parent_id` relation is acyclic: no category is its own strict
descendant. -/
def Acyclic (cats : List Category) : Prop :=
  ∀ c, ¬ Relation.TransGen (childOf cats) c c

/-- `c` is reachable from the id `pid`: its parent chain, through members
of the list, reaches `pid`.  `Reaches cats none c` says the parent chain
of `c` reaches `null`. -/
inductive Reaches (cats : List Category) (pid : Option Nat) : Category → Prop
  | base {c} : c ∈ cats → c.parent_id = pid → Reaches cats pid c
  | step {p c} : Reaches cats pid p → c ∈ cats → c.parent_id = some p.id →
      Reaches cats pid c

theorem reaches_trans_of {cats : List Category} {pid : Option Nat}
    {a c : Category} (h : Reaches cats (some a.id) c)
    (ha : Reaches cats pid a) : Reaches cats pid c := by
  induction h with
  | base hc hp => exact Reaches.step ha hc hp
  | step _ hc hpc ih => exact Reaches.step ih hc hpc

theorem mem_sortByName {l : List Category} {c : Category} :
    c ∈ sortByName l ↔ c ∈ l :=
  (List.perm_insertionSort catLe l).mem_iff

/-- Soundness: everything `flattenForSelect` lists is reachable from the
starting id. -/
theorem flattenForSelect_sound (fuel : Nat) (cats : List Category) :
    ∀ (pid : Option Nat) (depth : Nat) (c : Category) (d : Nat),
      (c, d) ∈ flattenForSelect fuel cats pid depth → Reaches cats pid c := by
  induction fuel with
  | zero =>
    intro pid depth c d h
    simp [flattenForSelect] at h
  | succ fuel ih =>
    intro pid depth c d h
    simp only [flattenForSelect, List.mem_flatMap] at h
    obtain ⟨a, ha, hmem⟩ := h
    have haf := List.mem_filter.mp (mem_sortByName.mp ha)
    have hpid : a.parent_id = pid := by simpa using haf.2
    rcases List.mem_cons.mp hmem with heq | hrec
    · have h1 : c = a := congrArg Prod.fst heq
      subst h1
      exact Reaches.base haf.1 hpid
    · exact reaches_trans_of (ih _ _ _ _ hrec) (Reaches.base haf.1 hpid)

/-- A descending parent chain: the list starts at a child of `pid`, each
element is the parent of the next, and all elements are in `cats`. -/
def ChainFrom (cats : List Category) : Option Nat → List Category → Prop
  | _, [] => True
  | pid, c :: l => c ∈ cats ∧ c.parent_id = pid ∧ ChainFrom cats (some c.id) l

theorem chainFrom_snoc (cats : List Category) :
    ∀ (l : List Category) (pid : Option Nat) (p c : Category),
      ChainFrom cats pid l → l.getLast? = some p → c ∈ cats →
      c.parent_id = some p.id → ChainFrom cats pid (l ++ [c]) := by
  intro l
  induction l with
  | nil =>
    intro pid p c _ hlast
    simp at hlast
  | cons x xs ih =>
    intro pid p c hch hlast hc hpc
    obtain ⟨hx, hxp, hrest⟩ := hch
    cases xs with
    | nil =>
      simp only [List.getLast?_singleton, Option.some.injEq] at hlast
      subst hlast
      exact ⟨hx, hxp, hc, hpc, trivial⟩
    | cons y ys =>
      refine ⟨hx, hxp, ?_⟩
      exact ih (some x.id) p c hrest (by simpa using hlast) hc hpc

theorem chainFrom_transGen (cats : List Category) :
    ∀ (l : List Category) (p : Category), p ∈ cats →
      ChainFrom cats (some p.id) l →
      ∀ x ∈ l, Relation.TransGen (childOf cats) x p := by
  intro l
  induction l with
  | nil =>
    intro p _ _ x hx
    simp at hx
  | cons y ys ih =>
    intro p hp hch x hx
    obtain ⟨hy, hyp, hrest⟩ := hch
    have hyP : Relation.TransGen (childOf cats) y p :=
      Relation.TransGen.single ⟨hy, hp, hyp⟩
    rcases List.mem_cons.mp hx with rfl | hx'
    · exact hyP
    · exact (ih y hy hrest x hx').trans hyP

theorem chainFrom_nodup (cats : List Category) (hacyc : Acyclic cats) :
    ∀ (l : List Category) (pid : Option Nat),
      ChainFrom cats pid l → l.Nodup := by
  intro l
  induction l with
  | nil => intro _ _; exact List.nodup_nil
  | cons x xs ih =>
    intro pid hch
    obtain ⟨hx, hxp, hrest⟩ := hch
    refine List.nodup_cons.mpr ⟨?_, ih (some x.id) hrest⟩
    intro hmem
    exact hacyc x (chainFrom_transGen cats xs x hx hrest x hmem)

theorem chainFrom_subset (cats : List Category) :
    ∀ (l : List Category) (pid : Option Nat),
      ChainFrom cats pid l → ∀ x ∈ l, x ∈ cats := by
  intro l
  induction l with
  | nil =>
    intro pid _ x hx
    simp at hx
  | cons y ys ih =>
    intro pid hch x hx
    obtain ⟨hy, hyp, hrest⟩ := hch
    rcases List.mem_cons.mp hx with rfl | hx'
    · exact hy
    · exact ih (some y.id) hrest x hx'

theorem reaches_chain {cats : List Category} {pid : Option Nat}
    {c : Category} (h : Reaches cats pid c) :
    ∃ l, ChainFrom cats pid l ∧ l.getLast? = some c := by
  induction h with
  | base hc hp => exact ⟨[_], ⟨hc, hp, trivial⟩, rfl⟩
  | step _ hc hpc ih =>
    obtain ⟨l, hl, hlast⟩ := ih
    exact ⟨l ++ [_], chainFrom_snoc cats l _ _ _ hl hlast hc hpc, by simp⟩

/-- Completeness core: the last element of a chain of length `n + 1`
appears in the flattening at depth `depth + n`, given at least `n + 1`
fuel. -/
theorem chain_mem_flatten (cats : List Category) :
    ∀ (xs : List Category) (x : Category) (pid : Option Nat)
      (depth fuel : Nat) (c : Category),
      ChainFrom cats pid (x :: xs) → xs.length + 1 ≤ fuel →
      (x :: xs).getLast? = some c →
      (c, depth + xs.length) ∈ flattenForSelect fuel cats pid depth := by
  intro xs
  induction xs with
  | nil =>
    intro x pid depth fuel c hch hfuel hlast
    obtain ⟨hx, hxp, -⟩ := hch
    simp only [List.getLast?_singleton, Option.some.injEq] at hlast
    subst hlast
    obtain ⟨f, rfl⟩ : ∃ f, fuel = f + 1 :=
      ⟨fuel - 1, by omega⟩
    simp only [flattenForSelect, List.mem_flatMap, List.length_nil, Nat.add_zero]
    exact ⟨x, mem_sortByName.mpr (List.mem_filter.mpr ⟨hx, by simpa using hxp⟩),
      List.mem_cons_self _ _⟩
  | cons y ys ih =>
    intro x pid depth fuel c hch hfuel hlast
    obtain ⟨hx, hxp, hrest⟩ := hch
    obtain ⟨f, rfl⟩ : ∃ f, fuel = f + 1 :=
      ⟨fuel - 1, by omega⟩
    have hrec := ih y (some x.id) (depth + 1) f c hrest (by simp at hfuel; omega)
      (by simpa using hlast)
    simp only [flattenForSelect, List.mem_flatMap]
    refine ⟨x, mem_sortByName.mpr (List.mem_filter.mpr ⟨hx, by simpa using hxp⟩), ?_⟩
    refine List.mem_cons.mpr (Or.inr ?_)
    have harith : depth + (y :: ys).length = depth + 1 + ys.length := by
      simp; omega
    rw [harith]
    exact hrec

/-- Completeness: under acyclicity, `categories.length` fuel suffices for
every reachable category to appear. -/
theorem reaches_mem_flatten (cats : List Category) (hacyc : Acyclic cats)
    (c : Category) (h : Reaches cats none c) :
    ∃ d, (c, d) ∈ flattenForSelect cats.length cats none 0 := by
  obtain ⟨l, hl, hlast⟩ := reaches_chain h
  cases l with
  | nil => simp at hlast
  | cons x xs =>
    have hnodup : (x :: xs).Nodup := chainFrom_nodup cats hacyc _ _ hl
    have hsub : (x :: xs) ⊆ cats := by
      intro a ha
      exact chainFrom_subset cats _ _ hl a ha
    have hlen : xs.length + 1 ≤ cats.length := by
      have := (hnodup.subperm hsub).length_le
      simpa using this
    exact ⟨0 + xs.length,
      chain_mem_flatten cats xs x none 0 cats.length c hl hlen hlast⟩

/-- Every level of a built tree lists its children sorted by name. -/
inductive TreeSorted : CatTree → Prop
  | node {c : Category} {ch : List CatTree} :
      List.Sorted catLe (ch.map CatTree.cat) →
      (∀ t ∈ ch, TreeSorted t) → TreeSorted (CatTree.node c ch)

theorem sorted_sortByName (l : List Category) :
    List.Sorted catLe (sortByName l) :=
  List.sorted_insertionSort catLe l

theorem buildTree_map_cat (fuel : Nat) (cats : List Category)
    (pid : Option Nat) :
    (buildTree (fuel + 1) cats pid).map CatTree.cat =
      sortByName (cats.filter (fun c => c.parent_id == pid)) := by
  simp only [buildTree, List.map_map]
  have hcomp : (CatTree.cat ∘
      fun c => CatTree.node c (buildTree fuel cats (some c.id))) = id := by
    funext c
    rfl
  rw [hcomp, List.map_id]

theorem buildTree_sorted (fuel : Nat) (cats : List Category) :
    ∀ (pid : Option Nat),
      List.Sorted catLe ((buildTree fuel cats pid).map CatTree.cat) ∧
      ∀ t ∈ buildTree fuel cats pid, TreeSorted t := by
  induction fuel with
  | zero =>
    intro pid
    refine ⟨by simp [buildTree], ?_⟩
    intro t ht
    simp [buildTree] at ht
  | succ fuel ih =>
    intro pid
    refine ⟨?_, ?_⟩
    · rw [buildTree_map_cat]
      exact sorted_sortByName _
    · intro t ht
      simp only [buildTree, List.mem_map] at ht
      obtain ⟨a, -, rfl⟩ := ht
      exact TreeSorted.node (ih (some a.id)).1 (ih (some a.id)).2

/-- C9: on an acyclic category list, `flattenForSelect` is exactly the
depth-first pre-order flattening of `buildTree` with each entry annotated
by its nesting depth (for every recursion budget, so in particular for the
budget at which both have converged); everything either function lists is
reachable from `parent_id` null, and with `categories.length` fuel every
reachable category appears (so a category whose parent chain never reaches
null appears in neither result); and siblings are sorted by name at every
level of the built tree. -/
theorem c9_flatten_refines_buildTree (cats : List Category)
    (hacyc : Acyclic cats) :
    (∀ fuel pid depth,
      flattenForSelect fuel cats pid depth =
        flattenTree depth (buildTree fuel cats pid)) ∧
    (∀ fuel c d, (c, d) ∈ flattenForSelect fuel cats none 0 →
      Reaches cats none c) ∧
    (∀ c, Reaches cats none c →
      ∃ d, (c, d) ∈ flattenForSelect cats.length cats none 0) ∧
    (∀ fuel, List.Sorted catLe ((buildTree fuel cats none).map CatTree.cat)) ∧
    (∀ fuel t, t ∈ buildTree fuel cats none → TreeSorted t) := by
  refine ⟨?_, ?_, ?_, ?_, ?_⟩
  · intro fuel pid depth
    exact flattenForSelect_eq_flattenTree fuel cats pid depth
  · intro fuel c d h
    exact flattenForSelect_sound fuel cats none 0 c d h
  · intro c h
    exact reaches_mem_flatten cats hacyc c h
  · intro fuel
    exact (buildTree_sorted fuel cats none).1
  · intro fuel t ht
    exact (buildTree_sorted fuel cats none).2 t ht

/-- A concrete two-category list: a root and one child, acyclic. -/
def exCats : List Category :=
  [⟨1, none, "b"⟩, ⟨2, some 1, "a"⟩]

theorem exCats_edge {x y : Category} (h : childOf exCats x y) :
    x = (⟨2, some 1, "a"⟩ : Category) ∧ y = (⟨1, none, "b"⟩ : Category) := by
  obtain ⟨hx, hy, hxy⟩ := h
  simp only [exCats, List.mem_cons, List.not_mem_nil, or_false] at hx hy
  rcases hx with rfl | rfl
  · exact absurd hxy (by simp)
  · rcases hy with rfl | rfl
    · exact ⟨rfl, rfl⟩
    · exact absurd hxy (by simp)

theorem exCats_acyclic : Acyclic exCats := by
  intro c h
  have htg : ∀ a b : Category, Relation.TransGen (childOf exCats) a b →
      a = (⟨2, some 1, "a"⟩ : Category) ∧ b = (⟨1, none, "b"⟩ : Category) := by
    intro a b htr
    induction htr with
    | single h1 => exact exCats_edge h1
    | tail _ h1 ih =>
      have hmid := ih.2
      have hmid' := (exCats_edge h1).1
      rw [hmid] at hmid'
      exact absurd hmid' (by decide)
  obtain ⟨h1, h2⟩ := htg c c h
  rw [h1] at h2
  exact absurd h2 (by decide)

/-- C9 witness: the refinement applied to the concrete acyclic category
list, with the acyclicity hypothesis discharged and both sides evaluated:
the child is listed right after its alphabetically later parent, at depth
1. -/
theorem c9_flatten_refines_buildTree_witness :
    flattenForSelect exCats.length exCats none 0 =
      flattenTree 0 (buildTree exCats.length exCats none) ∧
    flattenForSelect exCats.length exCats none 0 =
      [(⟨1, none, "b"⟩, 0), (⟨2, some 1, "a"⟩, 1)] :=
  ⟨(c9_flatten_refines_buildTree exCats exCats_acyclic).1 exCats.length none 0,
   by decide⟩
